import Mathlib

/-!
Verification development for the `lsh-rs` LSH index engine.

The LSH index orchestration (`LSH::new`, `seed`, `srp`, `l2`, `mips`,
`store_vec`, `store_vecs`, `query_bucket`, `delete_vec`) is translated from
`src/lsh-rs/src/lsh.rs`.  The crate modules `hash.rs`, `table.rs` and
`utils.rs` (hash families, `MemoryTable`, `create_rng`) are not part of the
provided sources; their definitions below are modelled from the spec and are
marked as such.

Scalars are modelled as exact rationals; none of the properties proved here
depend on floating-point rounding.  A Rust `panic` is modelled by the
`PanicOr.panicked` outcome, an `Err` return by `Except.error`.
-/

/-- A stored vector: an ordered sequence of scalars (source: `Vec<f32>`). -/
abbrev DataPoint : Type := List ℚ

/-- A hash signature: one integer per projection (source: the `Hash` type). -/
abbrev HashSig : Type := List ℤ

/-- A bucket: the deduplicated set of global point indices mapped to one
signature within one table (source: `Bucket = FnvHashSet<usize>`). -/
abbrev Bucket : Type := Finset ℕ

/-- Modelled from the spec: the storage-backend error type of `table.rs`
(missing from the provided sources).  `NotFound` is the expected
bucket-missing outcome; `Failed` is an unexpected backend fault. -/
inductive HashTableError : Type where
  | NotFound : HashTableError
  | Failed : HashTableError
deriving DecidableEq

/-- Outcome of a Rust computation that can `panic`: either a normal result or
a process abort carrying the panic message. -/
inductive PanicOr (α : Type) : Type where
  | ok : α → PanicOr α
  | panicked : String → PanicOr α
deriving DecidableEq

/-- The panic message at `lsh.rs` line 141. -/
def msgCouldNotStore : String := "Could not store vec"

/-- The panic message at `lsh.rs` line 173. -/
def msgUnexpectedQuery : String := "Unexpected query result"

/-- Look up the bucket stored under signature `h` in one table
(association-list model of the per-table hash map). -/
def bucketLookup : List (HashSig × Bucket) → HashSig → Option Bucket
  | [], _ => none
  | p :: rest, h => if p.1 = h then some p.2 else bucketLookup rest h

/-- Insert index `idx` into the bucket for signature `h`, creating the bucket
if absent (idempotent: buckets are sets). -/
def bucketInsert : List (HashSig × Bucket) → HashSig → ℕ → List (HashSig × Bucket)
  | [], h, idx => [(h, {idx})]
  | p :: rest, h, idx =>
    if p.1 = h then (p.1, insert idx p.2) :: rest
    else p :: bucketInsert rest h idx

/-- Remove from the bucket for signature `h` every index whose stored vector
(as resolved through `vs`) is value-equal to `d`; a no-op if the bucket is
absent. -/
def bucketRemove (vs : List DataPoint) (d : DataPoint) :
    List (HashSig × Bucket) → HashSig → List (HashSig × Bucket)
  | [], _ => []
  | p :: rest, h =>
    if p.1 = h then
      (p.1, p.2.filter (fun idx => ¬ vs.getD idx [] = d)) :: rest
    else p :: bucketRemove vs d rest h

/-- Modelled from the spec: the in-memory storage backend of `table.rs`
(missing from the provided sources).  One association map per hash table plus
the single shared growable vector store referenced by index from every
bucket. -/
structure MemoryTable : Type where
  hash_tables : List (List (HashSig × Bucket))
  vec_store : List DataPoint
deriving DecidableEq

/-- Modelled from the spec: `MemoryTable::new` allocates `n` empty tables and
an empty global point store. -/
def MemoryTable.new (n : ℕ) : MemoryTable :=
  { hash_tables := List.replicate n [], vec_store := [] }

/-- Modelled from the spec: `put` inserts the point's index into the bucket
for `h` in table `i`.  The point is appended to the global store once per
stored vector — on the first table — not once per table; later tables reuse
the index of the last appended point.  An out-of-range table id is the one
modelled backend fault. -/
def MemoryTable.put (t : MemoryTable) (h : HashSig) (d : DataPoint) (i : ℕ) :
    Except HashTableError MemoryTable :=
  match t.hash_tables[i]? with
  | none => .error .Failed
  | some tbl =>
    .ok { hash_tables :=
            t.hash_tables.set i
              (bucketInsert tbl h
                (if i = 0 then t.vec_store.length else t.vec_store.length - 1)),
          vec_store := if i = 0 then t.vec_store ++ [d] else t.vec_store }

/-- Modelled from the spec: `query_bucket` returns the bucket's membership or
fails with `NotFound` when no bucket exists for that signature. -/
def MemoryTable.query_bucket (t : MemoryTable) (h : HashSig) (i : ℕ) :
    Except HashTableError Bucket :=
  match t.hash_tables[i]? with
  | none => .error .Failed
  | some tbl =>
    match bucketLookup tbl h with
    | none => .error .NotFound
    | some b => .ok b

/-- Modelled from the spec: `delete` removes the point's index (identified by
value-equality) from the bucket for `h`; it succeeds as a no-op when the
point or bucket is absent and never touches the global point store. -/
def MemoryTable.delete (t : MemoryTable) (h : HashSig) (d : DataPoint) (i : ℕ) :
    Except HashTableError MemoryTable :=
  match t.hash_tables[i]? with
  | none => .error .Failed
  | some tbl =>
    .ok { hash_tables := t.hash_tables.set i (bucketRemove t.vec_store d tbl h),
          vec_store := t.vec_store }

/-- Modelled from the spec: `idx_to_datapoint` resolves a global point index
back to its vector. -/
def MemoryTable.idx_to_datapoint (t : MemoryTable) (i : ℕ) : DataPoint :=
  t.vec_store.getD i []

/-- Modelled from the spec: `increase_storage` is a capacity hint; for the
functional model it is a no-op. -/
def MemoryTable.increase_storage (t : MemoryTable) (_n : ℕ) : MemoryTable := t

/-- The `VecHash` capability: the two hashing entry points of a hash-family
instance (source trait `VecHash` of `hash.rs`). -/
class VecHash (H : Type) : Type where
  hash_vec_put : H → DataPoint → HashSig
  hash_vec_query : H → DataPoint → HashSig

/-- Modelled from the spec: one step of the seeded pseudo-random generator of
`utils.rs` (missing from the provided sources); a 64-bit linear congruential
stand-in. -/
def rngNext (s : ℕ) : ℕ :=
  (6364136223846793005 * s + 1442695040888963407) % (2 ^ 64)

/-- Draw one value from the generator: the drawn value and the next state. -/
def rngGen (s : ℕ) : ℕ × ℕ :=
  (rngNext s, rngNext s)

/-- Modelled from the spec: `create_rng` of `utils.rs`.  A nonzero seed yields
a fully deterministic generator; seed `0` seeds from ambient entropy, which
the model makes explicit as an extra argument. -/
def create_rng (seed entropy : ℕ) : ℕ :=
  if seed = 0 then rngNext entropy else seed

/-- The first `n` values drawn from the generator stream started at state
`s`, in order. -/
def seedStream (s : ℕ) : ℕ → List ℕ
  | 0 => []
  | n + 1 => (rngGen s).1 :: seedStream (rngGen s).2 n

/-- Modelled from the spec: one pseudo-random projection coefficient derived
from a hasher seed, projection number and coordinate. -/
def projCoeff (seed k j : ℕ) : ℚ :=
  ((rngNext (seed + 1000003 * k + 7919 * j) % 2001 : ℕ) : ℚ) - 1000

/-- The inner product of the `k`-th seeded projection vector with `v`, over
`dim` coordinates. -/
def projDot (seed k dim : ℕ) (v : DataPoint) : ℚ :=
  ((List.range dim).map (fun j => projCoeff seed k j * v.getD j 0)).sum

/-- The sign-random-projections hasher (source `SignRandomProjections` of
`hash.rs`, missing from the provided sources; modelled from the spec). -/
structure SignRandomProjections : Type where
  n_projections : ℕ
  dim : ℕ
  seed : ℕ
deriving DecidableEq

def SignRandomProjections.new (n_projections dim seed : ℕ) : SignRandomProjections :=
  { n_projections := n_projections, dim := dim, seed := seed }

/-- Modelled from the spec: the SRP signature is the per-projection sign bit
of the inner product with a seeded pseudo-random hyperplane; storage and
query hashing are the identical function (symmetric LSH). -/
def SignRandomProjections.hash_vec (h : SignRandomProjections) (v : DataPoint) : HashSig :=
  (List.range h.n_projections).map
    (fun k => if 0 ≤ projDot h.seed k h.dim v then 1 else -1)

instance : VecHash SignRandomProjections where
  hash_vec_put := SignRandomProjections.hash_vec
  hash_vec_query := SignRandomProjections.hash_vec

/-- The L2 (Euclidean) hasher (source `L2` of `hash.rs`, missing from the
provided sources; modelled from the spec). -/
structure L2 : Type where
  dim : ℕ
  r : ℚ
  n_projections : ℕ
  seed : ℕ
deriving DecidableEq

def L2.new (dim : ℕ) (r : ℚ) (n_projections seed : ℕ) : L2 :=
  { dim := dim, r := r, n_projections := n_projections, seed := seed }

/-- Modelled from the spec: the L2 signature per projection is
`floor((a · v + b) / r)`; storage and query hashing are the identical
function (symmetric LSH). -/
def L2.hash_vec (h : L2) (v : DataPoint) : HashSig :=
  (List.range h.n_projections).map
    (fun k =>
      Int.floor ((projDot h.seed k h.dim v +
        (projCoeff h.seed (h.n_projections + k) 0)) / h.r))

instance : VecHash L2 where
  hash_vec_put := L2.hash_vec
  hash_vec_query := L2.hash_vec

/-- The MIPS (maximum-inner-product) hasher (source `MIPS` of `hash.rs`,
missing from the provided sources). -/
structure MIPS : Type where
  dim : ℕ
  r : ℚ
  U : ℚ
  m : ℕ
  n_projections : ℕ
  seed : ℕ
deriving DecidableEq

def MIPS.new (dim : ℕ) (r U : ℚ) (m n_projections seed : ℕ) : MIPS :=
  { dim := dim, r := r, U := U, m := m, n_projections := n_projections, seed := seed }

/-- Modelled from the spec: the exact MIPS asymmetric transform is given only
by external citation, so the model extends the vector with `m` extra terms, a
different extension on the storage and on the query side, and applies an
L2-style hash to the extended vector. -/
def MIPS.hash_extended (h : MIPS) (v : DataPoint) : HashSig :=
  (List.range h.n_projections).map
    (fun k => Int.floor (projDot h.seed k (h.dim + h.m) v / h.r))

def MIPS.hash_vec_put (h : MIPS) (v : DataPoint) : HashSig :=
  h.hash_extended (v ++ List.replicate h.m 0)

def MIPS.hash_vec_query (h : MIPS) (v : DataPoint) : HashSig :=
  h.hash_extended (v ++ List.replicate h.m (1 / 2))

instance : VecHash MIPS where
  hash_vec_put := MIPS.hash_vec_put
  hash_vec_query := MIPS.hash_vec_query

/-- The LSH index (source struct `LSH` of `lsh.rs`), generic over the hasher
type as in the source; the storage backend is the in-memory table. -/
structure LSH (H : Type) : Type where
  n_hash_tables : ℕ
  n_projections : ℕ
  hashers : List H
  dim : ℕ
  hash_tables : MemoryTable
  _seed : ℕ
deriving DecidableEq

/-- `LSH::new` (lsh.rs lines 111-120): an unconfigured index with no hashers,
`n_hash_tables` empty tables and seed `0`. -/
def LSH.new (H : Type) (n_projections n_hash_tables dim : ℕ) : LSH H :=
  { n_hash_tables := n_hash_tables
    n_projections := n_projections
    hashers := []
    dim := dim
    hash_tables := MemoryTable.new n_hash_tables
    _seed := 0 }

/-- `LSH::seed` (lsh.rs lines 125-128). -/
def LSH.seed {H : Type} (l : LSH H) (s : ℕ) : LSH H :=
  { l with _seed := s }

/-- The per-table hasher construction loop of `LSH::srp` (lsh.rs lines
19-26): one sub-seed drawn from the stream per table, in table order. -/
def srpHashers (n_projections dim : ℕ) (rng : ℕ) : ℕ → List SignRandomProjections
  | 0 => []
  | n + 1 =>
    SignRandomProjections.new n_projections dim (rngGen rng).1 ::
      srpHashers n_projections dim (rngGen rng).2 n

/-- `LSH::srp` (lsh.rs lines 18-35).  The `entropy` argument makes explicit
the ambient randomness that `create_rng` consumes when the seed is `0`. -/
def LSH.srp (l : LSH SignRandomProjections) (entropy : ℕ) : LSH SignRandomProjections :=
  { n_hash_tables := l.n_hash_tables
    n_projections := l.n_projections
    hashers := srpHashers l.n_projections l.dim (create_rng l._seed entropy) l.n_hash_tables
    dim := l.dim
    hash_tables := MemoryTable.new l.n_hash_tables
    _seed := l._seed }

/-- The per-table hasher construction loop of `LSH::l2` (lsh.rs lines
51-57). -/
def l2Hashers (dim : ℕ) (r : ℚ) (n_projections : ℕ) (rng : ℕ) : ℕ → List L2
  | 0 => []
  | n + 1 =>
    L2.new dim r n_projections (rngGen rng).1 ::
      l2Hashers dim r n_projections (rngGen rng).2 n

/-- `LSH::l2` (lsh.rs lines 50-66). -/
def LSH.l2 (l : LSH L2) (r : ℚ) (entropy : ℕ) : LSH L2 :=
  { n_hash_tables := l.n_hash_tables
    n_projections := l.n_projections
    hashers := l2Hashers l.dim r l.n_projections (create_rng l._seed entropy) l.n_hash_tables
    dim := l.dim
    hash_tables := MemoryTable.new l.n_hash_tables
    _seed := l._seed }

/-- The per-table hasher construction loop of `LSH::mips` (lsh.rs lines
84-90). -/
def mipsHashers (dim : ℕ) (r U : ℚ) (m n_projections : ℕ) (rng : ℕ) : ℕ → List MIPS
  | 0 => []
  | n + 1 =>
    MIPS.new dim r U m n_projections (rngGen rng).1 ::
      mipsHashers dim r U m n_projections (rngGen rng).2 n

/-- `LSH::mips` (lsh.rs lines 82-99). -/
def LSH.mips (l : LSH MIPS) (r U : ℚ) (m entropy : ℕ) : LSH MIPS :=
  { n_hash_tables := l.n_hash_tables
    n_projections := l.n_projections
    hashers := mipsHashers l.dim r U m l.n_projections (create_rng l._seed entropy) l.n_hash_tables
    dim := l.dim
    hash_tables := MemoryTable.new l.n_hash_tables
    _seed := l._seed }

/-- The enumerated loop body of `LSH::store_vec` (lsh.rs lines 137-143): per
hasher, hash with the storage-side hash and `put`; an `Err` from `put` is a
panic, not a returned error. -/
def storeGo {H : Type} [VecHash H] (v : DataPoint) :
    ℕ → List H → MemoryTable → PanicOr MemoryTable
  | _, [], t => .ok t
  | i, proj :: rest, t =>
    match t.put (VecHash.hash_vec_put proj v) v i with
    | .ok t2 => storeGo v (i + 1) rest t2
    | .error _ => .panicked msgCouldNotStore

/-- `LSH::store_vec` (lsh.rs lines 136-144). -/
def LSH.store_vec {H : Type} [VecHash H] (l : LSH H) (v : DataPoint) : PanicOr (LSH H) :=
  match storeGo v 0 l.hashers l.hash_tables with
  | .ok t => .ok { l with hash_tables := t }
  | .panicked m => .panicked m

/-- `LSH::store_vecs` (lsh.rs lines 151-156): grow storage once, then store
each vector in order. -/
def LSH.store_vecs {H : Type} [VecHash H] (l : LSH H) (vs : List DataPoint) : PanicOr (LSH H) :=
  storeVecsGo { l with hash_tables := l.hash_tables.increase_storage vs.length } vs
where
  storeVecsGo : LSH H → List DataPoint → PanicOr (LSH H)
    | l2, [] => .ok l2
    | l2, v :: rest =>
      match l2.store_vec v with
      | .ok l3 => storeVecsGo l3 rest
      | .panicked m => .panicked m

/-- The enumerated loop body of `LSH::query_bucket` (lsh.rs lines 166-175):
per hasher, hash with the query-side hash and query the table; `NotFound`
contributes nothing, a found bucket is unioned in, any other outcome is a
panic.  The table state is threaded through untouched. -/
def queryGo {H : Type} [VecHash H] (v : DataPoint) :
    ℕ → List H → MemoryTable → Bucket → PanicOr (Bucket × MemoryTable)
  | _, [], t, acc => .ok (acc, t)
  | i, proj :: rest, t, acc =>
    match t.query_bucket (VecHash.hash_vec_query proj v) i with
    | .error .NotFound => queryGo v (i + 1) rest t acc
    | .ok bucket => queryGo v (i + 1) rest t (acc ∪ bucket)
    | .error .Failed => .panicked msgUnexpectedQuery

/-- `LSH::query_bucket` (lsh.rs lines 163-180): the union of the matching
buckets over all tables, resolved back to vectors.  The returned index value
is the post-call state of the receiver. -/
def LSH.query_bucket {H : Type} [VecHash H] (l : LSH H) (v : DataPoint) :
    PanicOr (List DataPoint × LSH H) :=
  match queryGo v 0 l.hashers l.hash_tables ∅ with
  | .ok (u, t) =>
    .ok ((u.sort (· ≤ ·)).map (fun idx => l.hash_tables.idx_to_datapoint idx),
         { l with hash_tables := t })
  | .panicked m => .panicked m

/-- The enumerated loop body of `LSH::delete_vec` (lsh.rs lines 187-190): per
hasher, hash with the query-side hash and delete; the result of each `delete`
is discarded (`unwrap_or_default`), so a failing delete leaves the state
as it was and signals nothing. -/
def deleteGo {H : Type} [VecHash H] (v : DataPoint) :
    ℕ → List H → MemoryTable → MemoryTable
  | _, [], t => t
  | i, proj :: rest, t =>
    match t.delete (VecHash.hash_vec_query proj v) v i with
    | .ok t2 => deleteGo v (i + 1) rest t2
    | .error _ => deleteGo v (i + 1) rest t

/-- `LSH::delete_vec` (lsh.rs lines 186-191). -/
def LSH.delete_vec {H : Type} [VecHash H] (l : LSH H) (v : DataPoint) : LSH H :=
  { l with hash_tables := deleteGo v 0 l.hashers l.hash_tables }

/-- Structural well-formedness of a bound index: as many hashers as storage
tables, both equal to `n_hash_tables` (spec §3 invariant). -/
def LSH.WF {H : Type} (l : LSH H) : Prop :=
  l.hashers.length = l.n_hash_tables ∧
    l.hash_tables.hash_tables.length = l.n_hash_tables

instance {H : Type} (l : LSH H) : Decidable l.WF := by
  unfold LSH.WF
  infer_instance

/-! ## Association-map lemmas -/

/-- The bucket stored for `h`, or the empty set. -/
def lookupD (tbl : List (HashSig × Bucket)) (h : HashSig) : Bucket :=
  (bucketLookup tbl h).getD ∅

/-- The bucket of table `i` for signature `h`, the empty set when the table
or the bucket is absent. -/
def bucketOrEmpty (t : MemoryTable) (i : ℕ) (h : HashSig) : Bucket :=
  match t.hash_tables[i]? with
  | none => ∅
  | some tbl => lookupD tbl h

theorem bucketLookup_bucketInsert (tbl : List (HashSig × Bucket)) (h h2 : HashSig) (idx : ℕ) :
    bucketLookup (bucketInsert tbl h idx) h2 =
      if h2 = h then
        some (match bucketLookup tbl h with
              | some b => insert idx b
              | none => {idx})
      else bucketLookup tbl h2 := by
  induction tbl with
  | nil =>
    simp only [bucketInsert, bucketLookup]
    by_cases hh : h2 = h
    · subst hh; simp
    · have hh2 : ¬ h = h2 := fun e => hh (Eq.symm e)
      simp [hh, hh2]
  | cons p rest ih =>
    simp only [bucketInsert]
    by_cases hp : p.1 = h
    · simp only [hp, if_pos rfl, bucketLookup]
      by_cases hh : h2 = h
      · subst hh; simp [hp]
      · have hh2 : ¬ h = h2 := fun e => hh (Eq.symm e)
        simp [hh, hh2]
    · simp only [if_neg hp, bucketLookup]
      by_cases hp2 : p.1 = h2
      · have hh : ¬ h2 = h := fun e => hp (hp2.trans e)
        simp [hp2, hh]
      · simp [hp2, ih, hp]

theorem bucketLookup_bucketRemove (vs : List DataPoint) (d : DataPoint)
    (tbl : List (HashSig × Bucket)) (h h2 : HashSig) :
    bucketLookup (bucketRemove vs d tbl h) h2 =
      if h2 = h then
        (bucketLookup tbl h).map
          (fun b => b.filter (fun idx => ¬ vs.getD idx [] = d))
      else bucketLookup tbl h2 := by
  induction tbl with
  | nil => simp [bucketRemove, bucketLookup]
  | cons p rest ih =>
    simp only [bucketRemove]
    by_cases hp : p.1 = h
    · simp only [hp, if_pos rfl, bucketLookup]
      by_cases hh : h2 = h
      · subst hh; simp [hp]
      · have hh2 : ¬ h = h2 := fun e => hh (Eq.symm e)
        simp [hh, hh2]
    · simp only [if_neg hp, bucketLookup]
      by_cases hp2 : p.1 = h2
      · have hh : ¬ h2 = h := fun e => hp (hp2.trans e)
        simp [hp2, hh]
      · simp [hp2, ih, hp]

theorem mem_lookupD_bucketInsert (tbl : List (HashSig × Bucket)) (h : HashSig) (idx : ℕ) :
    idx ∈ lookupD (bucketInsert tbl h idx) h := by
  unfold lookupD
  rw [bucketLookup_bucketInsert, if_pos rfl]
  cases hb : bucketLookup tbl h with
  | none => simp
  | some b => simp

theorem lookupD_bucketInsert_mono (tbl : List (HashSig × Bucket)) (h h2 : HashSig)
    (idx x : ℕ) (hx : x ∈ lookupD tbl h2) :
    x ∈ lookupD (bucketInsert tbl h idx) h2 := by
  unfold lookupD at hx ⊢
  rw [bucketLookup_bucketInsert]
  by_cases hh : h2 = h
  · subst hh
    cases hb : bucketLookup tbl h2 with
    | none => rw [hb] at hx; simp at hx
    | some b =>
      rw [hb] at hx
      simp only [Option.getD_some] at hx
      simp [hb, Finset.mem_insert_of_mem hx]
  · simp [hh, hx]

theorem lookupD_bucketRemove_keep (vs : List DataPoint) (d : DataPoint)
    (tbl : List (HashSig × Bucket)) (h h2 : HashSig) (x : ℕ)
    (hx : x ∈ lookupD tbl h2) (hne : ¬ vs.getD x [] = d) :
    x ∈ lookupD (bucketRemove vs d tbl h) h2 := by
  unfold lookupD at hx ⊢
  rw [bucketLookup_bucketRemove]
  by_cases hh : h2 = h
  · subst hh
    cases hb : bucketLookup tbl h2 with
    | none => rw [hb] at hx; simp at hx
    | some b =>
      rw [hb] at hx
      simp only [Option.getD_some] at hx
      simp only [hb, Option.map_some, Option.getD_some]
      exact Finset.mem_filter.mpr ⟨hx, hne⟩
  · simp [hh, hx]

/-! ## Query-path characterization -/

/-- The bucket union of `query_bucket` in closed form: the deduplicated union,
over the hashers from table position `i` on, of the bucket stored under the
query-side signature, with an absent bucket contributing the empty set. -/
def unionFrom {H : Type} [VecHash H] (t : MemoryTable) (v : DataPoint) :
    ℕ → List H → Bucket
  | _, [] => ∅
  | i, proj :: rest =>
    bucketOrEmpty t i (VecHash.hash_vec_query proj v) ∪ unionFrom t v (i + 1) rest

theorem queryGo_spec {H : Type} [VecHash H] (v : DataPoint) :
    ∀ (hs : List H) (i : ℕ) (t : MemoryTable) (acc : Bucket),
      i + hs.length ≤ t.hash_tables.length →
      queryGo v i hs t acc = .ok (acc ∪ unionFrom t v i hs, t) := by
  intro hs
  induction hs with
  | nil => intro i t acc _; simp [queryGo, unionFrom]
  | cons proj rest ih =>
    intro i t acc hb
    have hi : i < t.hash_tables.length := by
      simp only [List.length_cons] at hb; omega
    obtain ⟨tbl, htbl⟩ : ∃ tbl, t.hash_tables[i]? = some tbl :=
      ⟨t.hash_tables[i], List.getElem?_eq_getElem hi⟩
    have hb2 : (i + 1) + rest.length ≤ t.hash_tables.length := by
      simp only [List.length_cons] at hb; omega
    simp only [queryGo, MemoryTable.query_bucket, htbl]
    cases hl : bucketLookup tbl (VecHash.hash_vec_query proj v) with
    | none =>
      rw [ih (i + 1) t acc hb2]
      have : bucketOrEmpty t i (VecHash.hash_vec_query proj v) = ∅ := by
        simp [bucketOrEmpty, htbl, lookupD, hl]
      simp [unionFrom, this]
    | some b =>
      simp only []
      rw [ih (i + 1) t (acc ∪ b) hb2]
      have : bucketOrEmpty t i (VecHash.hash_vec_query proj v) = b := by
        simp [bucketOrEmpty, htbl, lookupD, hl]
      simp [unionFrom, this, Finset.union_assoc]

theorem mem_unionFrom {H : Type} [VecHash H] (t : MemoryTable) (v : DataPoint) :
    ∀ (hs : List H) (i k : ℕ) (proj : H) (x : ℕ),
      hs[k]? = some proj →
      x ∈ bucketOrEmpty t (i + k) (VecHash.hash_vec_query proj v) →
      x ∈ unionFrom t v i hs := by
  intro hs
  induction hs with
  | nil => intro i k proj x hk; simp at hk
  | cons p rest ih =>
    intro i k proj x hk hx
    cases k with
    | zero =>
      simp only [List.getElem?_cons_zero, Option.some.injEq] at hk
      subst hk
      simp only [Nat.add_zero] at hx
      exact Finset.mem_union_left _ hx
    | succ k2 =>
      simp only [List.getElem?_cons_succ] at hk
      have : x ∈ unionFrom t v (i + 1) rest := by
        apply ih (i + 1) k2 proj x hk
        have : i + 1 + k2 = i + (k2 + 1) := by omega
        rw [this]
        exact hx
      exact Finset.mem_union_right _ this

/-- `query_bucket` on a well-formed index: the result is the bucket union in
closed form, resolved through `idx_to_datapoint`, and the index state is
returned unchanged. -/
theorem query_bucket_spec {H : Type} [VecHash H] (l : LSH H) (v : DataPoint)
    (hWF : l.WF) :
    l.query_bucket v =
      .ok (((unionFrom l.hash_tables v 0 l.hashers).sort (· ≤ ·)).map
             (fun idx => l.hash_tables.idx_to_datapoint idx), l) := by
  have hb : 0 + l.hashers.length ≤ l.hash_tables.hash_tables.length := by
    rcases hWF with ⟨h1, h2⟩; omega
  unfold LSH.query_bucket
  rw [queryGo_spec v l.hashers 0 l.hash_tables ∅ hb]
  simp [Finset.empty_union]

/-! ## List access helpers -/

theorem mem_of_getElemOpt {α : Type} {l : List α} {i : ℕ} {a : α}
    (h : l[i]? = some a) : a ∈ l := by
  obtain ⟨hl, he⟩ := List.getElem?_eq_some.mp h
  exact he ▸ List.getElem_mem hl

theorem getD_append_left {α : Type} [Inhabited α] (l l2 : List α) (i : ℕ) (d : α)
    (h : i < l.length) : (l ++ l2).getD i d = l.getD i d := by
  rw [List.getD_eq_getD_get?, List.getD_eq_getD_get?, List.get?_eq_getElem?,
    List.get?_eq_getElem?, List.getElem?_append_left h]

theorem getD_concat_length {α : Type} [Inhabited α] (l : List α) (a d : α) :
    (l ++ [a]).getD l.length d = a := by
  rw [List.getD_eq_getD_get?, List.get?_eq_getElem?, List.getElem?_concat_length]
  rfl

/-! ## Store-path characterization -/

theorem storeGo_spec {H : Type} [VecHash H] (v : DataPoint) :
    ∀ (hs : List H) (i : ℕ) (t : MemoryTable), 1 ≤ i →
      i + hs.length ≤ t.hash_tables.length →
      ∃ t2, storeGo v i hs t = .ok t2 ∧
        t2.vec_store = t.vec_store ∧
        t2.hash_tables.length = t.hash_tables.length ∧
        (∀ j, j < i ∨ i + hs.length ≤ j → t2.hash_tables[j]? = t.hash_tables[j]?) ∧
        (∀ k proj, hs[k]? = some proj →
          t2.hash_tables[i + k]? =
            (t.hash_tables[i + k]?).map
              (fun tbl => bucketInsert tbl (VecHash.hash_vec_put proj v)
                (t.vec_store.length - 1))) := by
  intro hs
  induction hs with
  | nil =>
    intro i t _ _
    refine ⟨t, rfl, rfl, rfl, fun j _ => rfl, fun k proj hk => by simp at hk⟩
  | cons proj rest ih =>
    intro i t h1 hb
    have hi : i < t.hash_tables.length := by
      simp only [List.length_cons] at hb; omega
    obtain ⟨tbl, htbl⟩ : ∃ tbl, t.hash_tables[i]? = some tbl :=
      ⟨t.hash_tables[i], List.getElem?_eq_getElem hi⟩
    have hiz : ¬ i = 0 := by omega
    set t1 : MemoryTable :=
      { hash_tables := t.hash_tables.set i
          (bucketInsert tbl (VecHash.hash_vec_put proj v) (t.vec_store.length - 1)),
        vec_store := t.vec_store } with ht1
    have hstep : storeGo v i (proj :: rest) t = storeGo v (i + 1) rest t1 := by
      simp [storeGo, MemoryTable.put, htbl, hiz, ht1]
    have hlen1 : t1.hash_tables.length = t.hash_tables.length := by
      simp [ht1, List.length_set]
    have hb2 : (i + 1) + rest.length ≤ t1.hash_tables.length := by
      rw [hlen1]; simp only [List.length_cons] at hb; omega
    obtain ⟨t2, he, hvs, hlen, hfr, hat⟩ := ih (i + 1) t1 (by omega) hb2
    refine ⟨t2, hstep ▸ he, ?_, ?_, ?_, ?_⟩
    · rw [hvs]
    · rw [hlen, hlen1]
    · intro j hj
      have hj1 : j < i + 1 ∨ (i + 1) + rest.length ≤ j := by
        rcases hj with hj | hj
        · exact Or.inl (by omega)
        · right; simp only [List.length_cons] at hj; omega
      have hne : ¬ i = j := by
        rcases hj with hj | hj
        · omega
        · simp only [List.length_cons] at hj; omega
      rw [hfr j hj1, ht1]
      exact List.getElem?_set_ne hne
    · intro k proj2 hk
      cases k with
      | zero =>
        simp only [List.getElem?_cons_zero, Option.some.injEq] at hk
        subst hk
        have h0 : i + 0 < i + 1 := by omega
        rw [hfr (i + 0) (Or.inl h0)]
        simp only [Nat.add_zero, ht1]
        rw [List.getElem?_set_self', htbl]
        simp
      | succ k2 =>
        simp only [List.getElem?_cons_succ] at hk
        have := hat k2 proj2 hk
        have hidx : i + (k2 + 1) = (i + 1) + k2 := by omega
        rw [hidx, this]
        have hne2 : ¬ i = (i + 1) + k2 := by omega
        rw [ht1]
        simp only []
        rw [List.getElem?_set_ne hne2]

/-- `store_vec` on a well-formed bound index: the vector is appended to the
global point store once, and its index — the pre-call store length — is
inserted into every table's bucket under that table's storage-side hash. -/
theorem store_vec_spec {H : Type} [VecHash H] (l : LSH H) (v : DataPoint)
    (hWF : l.WF) (hne : l.hashers ≠ []) :
    ∃ l2, l.store_vec v = .ok l2 ∧
      l2.hashers = l.hashers ∧
      l2.n_hash_tables = l.n_hash_tables ∧
      l2.dim = l.dim ∧
      l2.hash_tables.vec_store = l.hash_tables.vec_store ++ [v] ∧
      l2.hash_tables.hash_tables.length = l.hash_tables.hash_tables.length ∧
      (∀ (k : ℕ) (proj : H), l.hashers[k]? = some proj →
        l2.hash_tables.hash_tables[k]? =
          (l.hash_tables.hash_tables[k]?).map
            (fun tbl => bucketInsert tbl (VecHash.hash_vec_put proj v)
              l.hash_tables.vec_store.length)) := by
  obtain ⟨h0, rest, hhs⟩ := List.exists_cons_of_ne_nil hne
  rcases hWF with ⟨hc1, hc2⟩
  have hlen0 : 0 < l.hash_tables.hash_tables.length := by
    rw [hc2, ← hc1, hhs]; simp
  obtain ⟨tbl0, htbl0⟩ : ∃ tbl0, l.hash_tables.hash_tables[0]? = some tbl0 :=
    ⟨l.hash_tables.hash_tables[0], List.getElem?_eq_getElem hlen0⟩
  set t := l.hash_tables with ht
  set t1 : MemoryTable :=
    { hash_tables := t.hash_tables.set 0
        (bucketInsert tbl0 (VecHash.hash_vec_put h0 v) t.vec_store.length),
      vec_store := t.vec_store ++ [v] } with ht1
  have hstep : storeGo v 0 l.hashers t = storeGo v 1 rest t1 := by
    rw [hhs]
    simp [storeGo, MemoryTable.put, htbl0, ht1]
  have hlen1 : t1.hash_tables.length = t.hash_tables.length := by
    simp [ht1, List.length_set]
  have hb2 : 1 + rest.length ≤ t1.hash_tables.length := by
    rw [hlen1, hc2, ← hc1, hhs]; simp only [List.length_cons]; omega
  obtain ⟨t2, he, hvs, hlen, hfr, hat⟩ := storeGo_spec v rest 1 t1 (by omega) hb2
  refine ⟨{ l with hash_tables := t2 }, ?_, rfl, rfl, rfl, ?_, ?_, ?_⟩
  · unfold LSH.store_vec
    rw [hstep, he]
  · rw [hvs, ht1]
  · rw [hlen, hlen1]
  · intro k proj hk
    cases k with
    | zero =>
      rw [hhs] at hk
      simp only [List.getElem?_cons_zero, Option.some.injEq] at hk
      subst hk
      have h01 : (0 : ℕ) < 1 := by omega
      show t2.hash_tables[0]? = _
      rw [hfr 0 (Or.inl h01), ht1]
      simp only []
      rw [List.getElem?_set_self', htbl0]
      simp
    | succ k2 =>
      rw [hhs] at hk
      simp only [List.getElem?_cons_succ] at hk
      have := hat k2 proj hk
      have hvs1 : t1.vec_store.length - 1 = t.vec_store.length := by
        simp [ht1]
      have hidx : k2 + 1 = 1 + k2 := by omega
      show t2.hash_tables[k2 + 1]? = _
      rw [hidx, this, hvs1]
      have hne2 : ¬ (0 : ℕ) = 1 + k2 := by omega
      rw [ht1]
      simp only []
      rw [List.getElem?_set_ne hne2]

/-- `store_vec` with no hashers bound silently returns the index unchanged. -/
theorem store_vec_nil {H : Type} [VecHash H] (l : LSH H) (v : DataPoint)
    (h : l.hashers = []) : l.store_vec v = .ok l := by
  obtain ⟨n1, n2, hs, d, t, s⟩ := l
  have h2 : hs = [] := h
  subst h2
  rfl

/-! ## Delete-path characterization -/

theorem deleteGo_vec_store {H : Type} [VecHash H] (v : DataPoint) :
    ∀ (hs : List H) (i : ℕ) (t : MemoryTable),
      (deleteGo v i hs t).vec_store = t.vec_store := by
  intro hs
  induction hs with
  | nil => intro i t; rfl
  | cons proj rest ih =>
    intro i t
    cases htbl : t.hash_tables[i]? with
    | none => simp [deleteGo, MemoryTable.delete, htbl, ih]
    | some tbl => simp [deleteGo, MemoryTable.delete, htbl, ih]

theorem deleteGo_len {H : Type} [VecHash H] (v : DataPoint) :
    ∀ (hs : List H) (i : ℕ) (t : MemoryTable),
      (deleteGo v i hs t).hash_tables.length = t.hash_tables.length := by
  intro hs
  induction hs with
  | nil => intro i t; rfl
  | cons proj rest ih =>
    intro i t
    cases htbl : t.hash_tables[i]? with
    | none => simp [deleteGo, MemoryTable.delete, htbl, ih]
    | some tbl => simp [deleteGo, MemoryTable.delete, htbl, ih, List.length_set]

theorem deleteGo_empty {H : Type} [VecHash H] (v : DataPoint) :
    ∀ (hs : List H) (i : ℕ) (t : MemoryTable),
      t.hash_tables = [] → deleteGo v i hs t = t := by
  intro hs
  induction hs with
  | nil => intro i t _; rfl
  | cons proj rest ih =>
    intro i t he
    have htbl : t.hash_tables[i]? = none := by rw [he]; rfl
    simp [deleteGo, MemoryTable.delete, htbl, ih _ _ he]

theorem deleteGo_spec {H : Type} [VecHash H] (v : DataPoint) :
    ∀ (hs : List H) (i : ℕ) (t : MemoryTable),
      i + hs.length ≤ t.hash_tables.length →
      (∀ j, j < i ∨ i + hs.length ≤ j →
        (deleteGo v i hs t).hash_tables[j]? = t.hash_tables[j]?) ∧
      (∀ (k : ℕ) (proj : H), hs[k]? = some proj →
        (deleteGo v i hs t).hash_tables[i + k]? =
          (t.hash_tables[i + k]?).map
            (fun tbl => bucketRemove t.vec_store v tbl
              (VecHash.hash_vec_query proj v))) := by
  intro hs
  induction hs with
  | nil =>
    intro i t _
    exact ⟨fun j _ => rfl, fun k proj hk => by simp at hk⟩
  | cons proj rest ih =>
    intro i t hb
    have hi : i < t.hash_tables.length := by
      simp only [List.length_cons] at hb; omega
    obtain ⟨tbl, htbl⟩ : ∃ tbl, t.hash_tables[i]? = some tbl :=
      ⟨t.hash_tables[i], List.getElem?_eq_getElem hi⟩
    set t1 : MemoryTable :=
      { hash_tables := t.hash_tables.set i
          (bucketRemove t.vec_store v tbl (VecHash.hash_vec_query proj v)),
        vec_store := t.vec_store } with ht1
    have hstep : deleteGo v i (proj :: rest) t = deleteGo v (i + 1) rest t1 := by
      simp [deleteGo, MemoryTable.delete, htbl, ht1]
    have hlen1 : t1.hash_tables.length = t.hash_tables.length := by
      simp [ht1, List.length_set]
    have hvs1 : t1.vec_store = t.vec_store := rfl
    have hb2 : (i + 1) + rest.length ≤ t1.hash_tables.length := by
      rw [hlen1]; simp only [List.length_cons] at hb; omega
    obtain ⟨hfr, hat⟩ := ih (i + 1) t1 hb2
    constructor
    · intro j hj
      have hj1 : j < i + 1 ∨ (i + 1) + rest.length ≤ j := by
        rcases hj with hj | hj
        · exact Or.inl (by omega)
        · right; simp only [List.length_cons] at hj; omega
      have hne : ¬ i = j := by
        rcases hj with hj | hj
        · omega
        · simp only [List.length_cons] at hj; omega
      rw [hstep, hfr j hj1, ht1]
      exact List.getElem?_set_ne hne
    · intro k proj2 hk
      cases k with
      | zero =>
        simp only [List.getElem?_cons_zero, Option.some.injEq] at hk
        subst hk
        have h0 : i + 0 < i + 1 := by omega
        rw [hstep, hfr (i + 0) (Or.inl h0)]
        simp only [Nat.add_zero, ht1]
        rw [List.getElem?_set_self', htbl]
        simp
      | succ k2 =>
        simp only [List.getElem?_cons_succ] at hk
        have hrec := hat k2 proj2 hk
        rw [hvs1] at hrec
        have hidx : i + (k2 + 1) = (i + 1) + k2 := by omega
        rw [hstep, hidx, hrec]
        have hne2 : ¬ i = (i + 1) + k2 := by omega
        rw [ht1]
        simp only []
        rw [List.getElem?_set_ne hne2]

/-! ## The store-to-query containment invariant -/

/-- Some stored slot of the global point store holds a vector value-equal to
`v` and its index sits in the query-side bucket of every table. -/
def ContainsV {H : Type} [VecHash H] (l : LSH H) (v : DataPoint) : Prop :=
  ∃ idx, idx < l.hash_tables.vec_store.length ∧
    l.hash_tables.vec_store.getD idx [] = v ∧
    ∀ (k : ℕ) (proj : H), l.hashers[k]? = some proj →
      idx ∈ bucketOrEmpty l.hash_tables k (VecHash.hash_vec_query proj v)

theorem store_establishes_ContainsV {H : Type} [VecHash H]
    (l l2 : LSH H) (v : DataPoint) (hWF : l.WF) (hne : l.hashers ≠ [])
    (hsym : ∀ h ∈ l.hashers,
      VecHash.hash_vec_put h v = VecHash.hash_vec_query h v)
    (hst : l.store_vec v = .ok l2) : ContainsV l2 v := by
  obtain ⟨l2x, he, hhs, hn, hd, hvs, hlen, hat⟩ := store_vec_spec l v hWF hne
  rw [hst] at he
  have hx : l2 = l2x := by
    cases he; rfl
  subst hx
  refine ⟨l.hash_tables.vec_store.length, ?_, ?_, ?_⟩
  · rw [hvs]; simp
  · rw [hvs, getD_concat_length]
  · intro k proj hk
    rw [hhs] at hk
    have hkl : k < l.hashers.length := (List.getElem?_eq_some.mp hk).1
    have hklt : k < l.hash_tables.hash_tables.length := by
      rcases hWF with ⟨h1, h2⟩; omega
    obtain ⟨tbl, htbl⟩ : ∃ tbl, l.hash_tables.hash_tables[k]? = some tbl :=
      ⟨l.hash_tables.hash_tables[k], List.getElem?_eq_getElem hklt⟩
    have := hat k proj hk
    rw [htbl] at this
    simp only [Option.map_some'] at this
    unfold bucketOrEmpty
    rw [this]
    have hkey : VecHash.hash_vec_put proj v = VecHash.hash_vec_query proj v :=
      hsym proj (mem_of_getElemOpt hk)
    rw [← hkey]
    exact mem_lookupD_bucketInsert tbl (VecHash.hash_vec_put proj v)
      l.hash_tables.vec_store.length

theorem store_preserves_ContainsV {H : Type} [VecHash H]
    (l l2 : LSH H) (v w : DataPoint) (hWF : l.WF)
    (hst : l.store_vec w = .ok l2) (hcv : ContainsV l v) : ContainsV l2 v := by
  obtain ⟨idx, hlt, hval, hmem⟩ := hcv
  by_cases hnil : l.hashers = []
  · have := store_vec_nil l w hnil
    rw [hst] at this
    have hx : l2 = l := by cases this; rfl
    subst hx
    exact ⟨idx, hlt, hval, hmem⟩
  · obtain ⟨l2x, he, hhs, hn, hd, hvs, hlen, hat⟩ := store_vec_spec l w hWF hnil
    rw [hst] at he
    have hx : l2 = l2x := by cases he; rfl
    subst hx
    refine ⟨idx, ?_, ?_, ?_⟩
    · rw [hvs]; simp; omega
    · rw [hvs, getD_append_left _ _ _ _ hlt]; exact hval
    · intro k proj hk
      rw [hhs] at hk
      have hkl : k < l.hashers.length := (List.getElem?_eq_some.mp hk).1
      have hklt : k < l.hash_tables.hash_tables.length := by
        rcases hWF with ⟨h1, h2⟩; omega
      obtain ⟨tbl, htbl⟩ : ∃ tbl, l.hash_tables.hash_tables[k]? = some tbl :=
        ⟨l.hash_tables.hash_tables[k], List.getElem?_eq_getElem hklt⟩
      have hmap := hat k proj hk
      rw [htbl] at hmap
      simp only [Option.map_some'] at hmap
      have hold := hmem k proj hk
      unfold bucketOrEmpty at hold ⊢
      rw [hmap]
      rw [htbl] at hold
      exact lookupD_bucketInsert_mono tbl _ _ _ idx hold

theorem delete_preserves_ContainsV {H : Type} [VecHash H]
    (l : LSH H) (v w : DataPoint) (hWF : l.WF) (hvw : ¬ w = v)
    (hcv : ContainsV l v) : ContainsV (l.delete_vec w) v := by
  obtain ⟨idx, hlt, hval, hmem⟩ := hcv
  have hb : 0 + l.hashers.length ≤ l.hash_tables.hash_tables.length := by
    rcases hWF with ⟨h1, h2⟩; omega
  obtain ⟨hfr, hat⟩ := deleteGo_spec w l.hashers 0 l.hash_tables hb
  have hvs : (deleteGo w 0 l.hashers l.hash_tables).vec_store =
      l.hash_tables.vec_store := deleteGo_vec_store w l.hashers 0 l.hash_tables
  refine ⟨idx, ?_, ?_, ?_⟩
  · show idx < (deleteGo w 0 l.hashers l.hash_tables).vec_store.length
    rw [hvs]; exact hlt
  · show (deleteGo w 0 l.hashers l.hash_tables).vec_store.getD idx [] = v
    rw [hvs]; exact hval
  · intro k proj hk
    have hkl : k < l.hashers.length := (List.getElem?_eq_some.mp hk).1
    have hklt : k < l.hash_tables.hash_tables.length := by
      rcases hWF with ⟨h1, h2⟩; omega
    obtain ⟨tbl, htbl⟩ : ∃ tbl, l.hash_tables.hash_tables[k]? = some tbl :=
      ⟨l.hash_tables.hash_tables[k], List.getElem?_eq_getElem hklt⟩
    have hmap := hat k proj hk
    simp only [Nat.zero_add] at hmap
    rw [htbl] at hmap
    simp only [Option.map_some'] at hmap
    have hold := hmem k proj hk
    unfold bucketOrEmpty at hold ⊢
    show idx ∈ _
    rw [show (l.delete_vec w).hash_tables = deleteGo w 0 l.hashers l.hash_tables from rfl,
      hmap]
    rw [htbl] at hold
    have hne : ¬ l.hash_tables.vec_store.getD idx [] = w := by
      rw [hval]; exact fun e => hvw (Eq.symm e)
    exact lookupD_bucketRemove_keep _ _ tbl _ _ idx hold hne

/-- On a well-formed bound index the invariant forces the query result to
contain `v`. -/
theorem query_contains {H : Type} [VecHash H] (l : LSH H) (v : DataPoint)
    (hWF : l.WF) (hne : l.hashers ≠ []) (hcv : ContainsV l v) :
    ∃ r, l.query_bucket v = .ok (r, l) ∧ v ∈ r := by
  obtain ⟨idx, hlt, hval, hmem⟩ := hcv
  obtain ⟨h0, rest, hhs⟩ := List.exists_cons_of_ne_nil hne
  refine ⟨((unionFrom l.hash_tables v 0 l.hashers).sort (· ≤ ·)).map
    (fun i => l.hash_tables.idx_to_datapoint i), query_bucket_spec l v hWF, ?_⟩
  have hk0 : l.hashers[0]? = some h0 := by rw [hhs]; simp
  have hm : idx ∈ unionFrom l.hash_tables v 0 l.hashers := by
    apply mem_unionFrom l.hash_tables v l.hashers 0 0 h0 idx hk0
    have := hmem 0 h0 hk0
    simpa using this
  refine List.mem_map.mpr ⟨idx, ?_, ?_⟩
  · exact (Finset.mem_sort _).mpr hm
  · show l.hash_tables.vec_store.getD idx [] = v
    exact hval

/-! ## Operation sequences -/

theorem store_vec_total {H : Type} [VecHash H] (l : LSH H) (v : DataPoint)
    (hWF : l.WF) :
    ∃ l2, l.store_vec v = .ok l2 ∧ l2.WF ∧ l2.hashers = l.hashers ∧
      l2.n_hash_tables = l.n_hash_tables := by
  by_cases hnil : l.hashers = []
  · exact ⟨l, store_vec_nil l v hnil, hWF, rfl, rfl⟩
  · obtain ⟨l2, he, hhs, hn, hd, hvs, hlen, hat⟩ := store_vec_spec l v hWF hnil
    refine ⟨l2, he, ?_, hhs, hn⟩
    rcases hWF with ⟨h1, h2⟩
    exact ⟨by rw [hhs, hn, h1], by rw [hlen, hn, h2]⟩

theorem delete_vec_WF {H : Type} [VecHash H] (l : LSH H) (v : DataPoint)
    (hWF : l.WF) :
    (l.delete_vec v).WF ∧ (l.delete_vec v).hashers = l.hashers ∧
      (l.delete_vec v).n_hash_tables = l.n_hash_tables := by
  rcases hWF with ⟨h1, h2⟩
  refine ⟨⟨h1, ?_⟩, rfl, rfl⟩
  show (deleteGo v 0 l.hashers l.hash_tables).hash_tables.length = l.n_hash_tables
  rw [deleteGo_len, h2]

/-- One index operation of a usage trace. -/
inductive Op : Type where
  | store : DataPoint → Op
  | del : DataPoint → Op
deriving DecidableEq

/-- Run one operation; a `store_vec` panic aborts the trace. -/
def runOp {H : Type} [VecHash H] (l : LSH H) : Op → PanicOr (LSH H)
  | .store w => l.store_vec w
  | .del w => .ok (l.delete_vec w)

/-- Run a trace of operations left to right. -/
def runOps {H : Type} [VecHash H] (l : LSH H) : List Op → PanicOr (LSH H)
  | [] => .ok l
  | op :: rest =>
    match runOp l op with
    | .ok l2 => runOps l2 rest
    | .panicked m => .panicked m

theorem runOps_append {H : Type} [VecHash H] (xs : List Op) :
    ∀ (l : LSH H) (ys : List Op),
      runOps l (xs ++ ys) =
        match runOps l xs with
        | .ok lm => runOps lm ys
        | .panicked m => .panicked m := by
  induction xs with
  | nil => intro l ys; rfl
  | cons op rest ih =>
    intro l ys
    simp only [List.cons_append, runOps]
    cases h : runOp l op with
    | ok l2 => simp only []; exact ih l2 ys
    | panicked m => simp only []

theorem runOps_total {H : Type} [VecHash H] (ops : List Op) :
    ∀ (l : LSH H), l.WF →
      ∃ l2, runOps l ops = .ok l2 ∧ l2.WF ∧ l2.hashers = l.hashers := by
  induction ops with
  | nil => intro l hWF; exact ⟨l, rfl, hWF, rfl⟩
  | cons op rest ih =>
    intro l hWF
    cases op with
    | store w =>
      obtain ⟨lm, he, hWF2, hhs, _⟩ := store_vec_total l w hWF
      obtain ⟨l2, he2, hWF3, hhs2⟩ := ih lm hWF2
      refine ⟨l2, ?_, hWF3, hhs2.trans hhs⟩
      show (match runOp l (Op.store w) with
            | .ok lx => runOps lx rest
            | .panicked m => .panicked m) = .ok l2
      rw [show runOp l (Op.store w) = l.store_vec w from rfl, he]
      exact he2
    | del w =>
      obtain ⟨hWF2, hhs, _⟩ := delete_vec_WF l w hWF
      obtain ⟨l2, he2, hWF3, hhs2⟩ := ih (l.delete_vec w) hWF2
      exact ⟨l2, he2, hWF3, hhs2.trans hhs⟩

theorem runOps_keeps_ContainsV {H : Type} [VecHash H] (v : DataPoint)
    (ops : List Op) :
    ∀ (l : LSH H), l.WF → ContainsV l v →
      (∀ w, Op.del w ∈ ops → ¬ w = v) →
      ∃ l2, runOps l ops = .ok l2 ∧ l2.WF ∧ l2.hashers = l.hashers ∧
        ContainsV l2 v := by
  induction ops with
  | nil => intro l hWF hcv _; exact ⟨l, rfl, hWF, rfl, hcv⟩
  | cons op rest ih =>
    intro l hWF hcv hnd
    have hndr : ∀ w, Op.del w ∈ rest → ¬ w = v :=
      fun w hw => hnd w (List.mem_cons_of_mem _ hw)
    cases op with
    | store w =>
      obtain ⟨lm, he, hWF2, hhs, _⟩ := store_vec_total l w hWF
      have hcv2 : ContainsV lm v := store_preserves_ContainsV l lm v w hWF he hcv
      obtain ⟨l2, he2, hWF3, hhs2, hcv3⟩ := ih lm hWF2 hcv2 hndr
      refine ⟨l2, ?_, hWF3, hhs2.trans hhs, hcv3⟩
      show (match runOp l (Op.store w) with
            | .ok lx => runOps lx rest
            | .panicked m => .panicked m) = .ok l2
      rw [show runOp l (Op.store w) = l.store_vec w from rfl, he]
      exact he2
    | del w =>
      have hwv : ¬ w = v := hnd w (List.mem_cons_self _ _)
      obtain ⟨hWF2, hhs, _⟩ := delete_vec_WF l w hWF
      have hcv2 : ContainsV (l.delete_vec w) v :=
        delete_preserves_ContainsV l v w hWF hwv hcv
      obtain ⟨l2, he2, hWF3, hhs2, hcv3⟩ := ih (l.delete_vec w) hWF2 hcv2 hndr
      exact ⟨l2, he2, hWF3, hhs2.trans hhs, hcv3⟩

theorem store_vecs_total {H : Type} [VecHash H] (vs : List DataPoint) :
    ∀ (l : LSH H), l.WF → ∃ l2, LSH.store_vecs.storeVecsGo l vs = .ok l2 := by
  induction vs with
  | nil => intro l _; exact ⟨l, rfl⟩
  | cons v rest ih =>
    intro l hWF
    obtain ⟨lm, he, hWF2, _, _⟩ := store_vec_total l v hWF
    obtain ⟨l2, he2⟩ := ih lm hWF2
    refine ⟨l2, ?_⟩
    show (match l.store_vec v with
          | .ok lx => LSH.store_vecs.storeVecsGo lx rest
          | .panicked m => .panicked m) = .ok l2
    rw [he]
    exact he2

/-! ## Family-binding structure -/

theorem srpHashers_length (np dim : ℕ) :
    ∀ (n rng : ℕ), (srpHashers np dim rng n).length = n := by
  intro n
  induction n with
  | zero => intro rng; rfl
  | succ n2 ih => intro rng; simp [srpHashers, ih]

theorem srpHashers_dim (np dim : ℕ) :
    ∀ (n rng : ℕ), ∀ h ∈ srpHashers np dim rng n,
      h.dim = dim ∧ h.n_projections = np := by
  intro n
  induction n with
  | zero => intro rng h hh; simp [srpHashers] at hh
  | succ n2 ih =>
    intro rng h hh
    simp only [srpHashers, List.mem_cons] at hh
    rcases hh with hh | hh
    · subst hh; exact ⟨rfl, rfl⟩
    · exact ih _ h hh

theorem srpHashers_seeds (np dim : ℕ) :
    ∀ (n rng : ℕ),
      (srpHashers np dim rng n).map (fun h => h.seed) = seedStream rng n := by
  intro n
  induction n with
  | zero => intro rng; rfl
  | succ n2 ih => intro rng; simp [srpHashers, seedStream, ih, SignRandomProjections.new]

theorem l2Hashers_length (dim : ℕ) (r : ℚ) (np : ℕ) :
    ∀ (n rng : ℕ), (l2Hashers dim r np rng n).length = n := by
  intro n
  induction n with
  | zero => intro rng; rfl
  | succ n2 ih => intro rng; simp [l2Hashers, ih]

theorem l2Hashers_dim (dim : ℕ) (r : ℚ) (np : ℕ) :
    ∀ (n rng : ℕ), ∀ h ∈ l2Hashers dim r np rng n,
      h.dim = dim ∧ h.n_projections = np ∧ h.r = r := by
  intro n
  induction n with
  | zero => intro rng h hh; simp [l2Hashers] at hh
  | succ n2 ih =>
    intro rng h hh
    simp only [l2Hashers, List.mem_cons] at hh
    rcases hh with hh | hh
    · subst hh; exact ⟨rfl, rfl, rfl⟩
    · exact ih _ h hh

theorem l2Hashers_seeds (dim : ℕ) (r : ℚ) (np : ℕ) :
    ∀ (n rng : ℕ),
      (l2Hashers dim r np rng n).map (fun h => h.seed) = seedStream rng n := by
  intro n
  induction n with
  | zero => intro rng; rfl
  | succ n2 ih => intro rng; simp [l2Hashers, seedStream, ih, L2.new]

theorem mipsHashers_length (dim : ℕ) (r U : ℚ) (m np : ℕ) :
    ∀ (n rng : ℕ), (mipsHashers dim r U m np rng n).length = n := by
  intro n
  induction n with
  | zero => intro rng; rfl
  | succ n2 ih => intro rng; simp [mipsHashers, ih]

theorem mipsHashers_dim (dim : ℕ) (r U : ℚ) (m np : ℕ) :
    ∀ (n rng : ℕ), ∀ h ∈ mipsHashers dim r U m np rng n,
      h.dim = dim ∧ h.n_projections = np := by
  intro n
  induction n with
  | zero => intro rng h hh; simp [mipsHashers] at hh
  | succ n2 ih =>
    intro rng h hh
    simp only [mipsHashers, List.mem_cons] at hh
    rcases hh with hh | hh
    · subst hh; exact ⟨rfl, rfl⟩
    · exact ih _ h hh

/-- A freshly allocated `MemoryTable` answers every bucket query with the
empty set. -/
theorem unionFrom_new {H : Type} [VecHash H] (v : DataPoint) (n : ℕ) :
    ∀ (hs : List H) (i : ℕ), unionFrom (MemoryTable.new n) v i hs = ∅ := by
  intro hs
  induction hs with
  | nil => intro i; rfl
  | cons proj rest ih =>
    intro i
    have hbe : bucketOrEmpty (MemoryTable.new n) i
        (VecHash.hash_vec_query proj v) = ∅ := by
      unfold bucketOrEmpty MemoryTable.new
      cases hio : (List.replicate n ([] : List (HashSig × Bucket)))[i]? with
      | none => simp [hio]
      | some tbl =>
        have hte : tbl = [] := by
          rcases List.getElem?_eq_some.mp hio with ⟨hlt, he⟩
          rw [List.getElem_replicate] at he
          exact he.symm
        subst hte
        simp [hio, lookupD, bucketLookup]
    simp [unionFrom, hbe, ih]

/-- `query_bucket` on any index whose tables are freshly allocated and whose
hasher count matches returns the empty result and the unchanged index. -/
theorem query_bucket_fresh {H : Type} [VecHash H] (l : LSH H) (v : DataPoint)
    (hWF : l.WF) (hfresh : l.hash_tables = MemoryTable.new l.n_hash_tables) :
    l.query_bucket v = .ok ([], l) := by
  rw [query_bucket_spec l v hWF, hfresh, unionFrom_new]
  simp [Finset.sort_empty]

/-- `query_bucket` with no hashers bound: the loop runs zero times and the
result is empty. -/
theorem query_bucket_nil {H : Type} [VecHash H] (l : LSH H) (v : DataPoint)
    (h : l.hashers = []) : l.query_bucket v = .ok ([], l) := by
  obtain ⟨n1, n2, hs, d, t, s⟩ := l
  have h2 : hs = [] := h
  subst h2
  simp [LSH.query_bucket, queryGo, Finset.sort_empty]

/-! ## Concrete fixtures -/

/-- A small bound SRP index: `LSH.new(2, 2, 2).seed(1).srp()`. -/
def exBound : LSH SignRandomProjections :=
  ((LSH.new SignRandomProjections 2 2 2).seed 1).srp 0

/-- A small data point of the configured dimension. -/
def exV : DataPoint := [1, 2]

/-- `exBound` after storing `exV`. -/
def exStored : LSH SignRandomProjections :=
  match exBound.store_vec exV with
  | .ok l2 => l2
  | .panicked _ => exBound

/-- An index state whose backend holds fewer tables than there are hashers,
so that the second `put` (and the second table query) fails. -/
def mismatchedIdx : LSH SignRandomProjections :=
  { n_hash_tables := 2
    n_projections := 1
    hashers := [SignRandomProjections.new 1 2 1, SignRandomProjections.new 1 2 2]
    dim := 2
    hash_tables := MemoryTable.new 1
    _seed := 0 }

/-- An index state with one hasher and no backend tables, so that every
backend delete call fails. -/
def tinyIdx : LSH SignRandomProjections :=
  { n_hash_tables := 1
    n_projections := 1
    hashers := [SignRandomProjections.new 1 2 1]
    dim := 2
    hash_tables := MemoryTable.new 0
    _seed := 0 }

/-- An unconfigured index: `LSH.new(5, 10, 3)`, no hash family selected. -/
def unboundIdx : LSH SignRandomProjections :=
  LSH.new SignRandomProjections 5 10 3

/-! ## Claim C1 -/

/-- C1 counterexample: when a storage `put` fails, `store_vec` aborts with
the panic message of lsh.rs line 141 instead of returning a typed error (its
return type has no error channel at all), and an unexpected table-query
failure makes `query_bucket` abort with the panic message of line 173. -/
theorem claim_c1_counterexample :
    mismatchedIdx.store_vec exV = .panicked msgCouldNotStore ∧
      mismatchedIdx.query_bucket exV = .panicked msgUnexpectedQuery := by
  constructor
  · decide
  · decide

/-- C1 (amended): on a well-formed bound index backed by the in-memory table,
no operation panics on ordinary input — every `put` lands in an existing
table and every table query yields a bucket or `NotFound`; but a failing
`put` makes `store_vec` panic rather than surface a typed error, and an
unexpected table-query result makes `query_bucket` panic (see the
counterexample). -/
theorem claim_c1_no_abort_on_wf {H : Type} [VecHash H] (l : LSH H)
    (v : DataPoint) (hWF : l.WF) :
    (∃ l2, l.store_vec v = .ok l2) ∧
      (∃ r, l.query_bucket v = .ok (r, l)) ∧
      (∀ vs : List DataPoint, ∃ l3, l.store_vecs vs = .ok l3) := by
  refine ⟨?_, ?_, ?_⟩
  · obtain ⟨l2, he, _⟩ := store_vec_total l v hWF
    exact ⟨l2, he⟩
  · exact ⟨_, query_bucket_spec l v hWF⟩
  · intro vs
    obtain ⟨l3, he⟩ := store_vecs_total vs l hWF
    exact ⟨l3, he⟩

/-- C1 witness: the amended no-abort theorem at the concrete bound index. -/
theorem claim_c1_witness :
    LSH.WF exBound ∧
      ((∃ l2, exBound.store_vec exV = .ok l2) ∧
        (∃ r, exBound.query_bucket exV = .ok (r, exBound)) ∧
        (∀ vs : List DataPoint, ∃ l3, exBound.store_vecs vs = .ok l3)) :=
  ⟨by decide, claim_c1_no_abort_on_wf exBound exV (by decide)⟩

/-! ## Claim C2 -/

/-- C2 counterexample: on the unconfigured index `LSH.new(5, 10, 3)` no
operation is rejected — `store_vec` completes successfully leaving the index
unchanged, `query_bucket` answers with the empty result, and `delete_vec` is
a silent no-op. -/
theorem claim_c2_counterexample :
    unboundIdx.store_vec [2, 3, 4] = .ok unboundIdx ∧
      unboundIdx.query_bucket [2, 3, 4] = .ok ([], unboundIdx) ∧
      unboundIdx.delete_vec [2, 3, 4] = unboundIdx := by
  refine ⟨by decide, query_bucket_nil unboundIdx [2, 3, 4] rfl, by decide⟩

/-- C2 (amended): operations invoked on an unbound index are neither rejected
with an error nor structurally impossible: with no hashers bound the
per-table loops run zero times, so `store_vec` succeeds without storing,
`query_bucket` succeeds with an empty result, and `delete_vec` returns the
index unchanged. -/
theorem claim_c2_unbound_silent_noop (H : Type) [VecHash H]
    (np nh d : ℕ) (v : DataPoint) :
    (LSH.new H np nh d).store_vec v = .ok (LSH.new H np nh d) ∧
      (LSH.new H np nh d).query_bucket v = .ok ([], LSH.new H np nh d) ∧
      (LSH.new H np nh d).delete_vec v = LSH.new H np nh d := by
  exact ⟨store_vec_nil _ v rfl, query_bucket_nil _ v rfl, rfl⟩

/-! ## Claim C3 -/

/-- C3: on a well-formed bound index, `query_bucket(v)` hashes `v` with the
query-side hash of each of the `n_hash_tables` hashers, absorbs a `NotFound`
bucket as contributing nothing, merges all found buckets into the one
deduplicated bucket union, and returns the vectors resolved from that merged
set via the index-to-point lookup (in an order derived from the set). -/
theorem claim_c3_query_is_bucket_union {H : Type} [VecHash H] (l : LSH H)
    (v : DataPoint) (hWF : l.WF) :
    l.hashers.length = l.n_hash_tables ∧
      l.query_bucket v =
        .ok (((unionFrom l.hash_tables v 0 l.hashers).sort (· ≤ ·)).map
               (fun idx => l.hash_tables.idx_to_datapoint idx), l) :=
  ⟨hWF.1, query_bucket_spec l v hWF⟩

/-- C3 witness: the bucket-union characterization at a concrete stored
index. -/
theorem claim_c3_witness :
    LSH.WF exStored ∧
      (exStored.hashers.length = exStored.n_hash_tables ∧
        exStored.query_bucket exV =
          .ok (((unionFrom exStored.hash_tables exV 0 exStored.hashers).sort
                  (· ≤ ·)).map
                 (fun idx => exStored.hash_tables.idx_to_datapoint idx),
               exStored)) :=
  ⟨by decide, claim_c3_query_is_bucket_union exStored exV (by decide)⟩

/-! ## Claim C4 -/

/-- C4: a vector `v` stored by `store_vec` into a well-formed bound index
whose hashers hash `v` identically on the storage and the query side (the
spec states this for the L2 and SRP families) is contained, value-equal, in
the result of `query_bucket(v)` after any further stores and any deletes of
other vectors, as long as `v` itself is not deleted. -/
theorem claim_c4_store_query_containment {H : Type} [VecHash H]
    (l0 : LSH H) (v : DataPoint) (ops1 ops2 : List Op)
    (hWF : l0.WF) (hne : l0.hashers ≠ [])
    (hsym : ∀ h ∈ l0.hashers,
      VecHash.hash_vec_put h v = VecHash.hash_vec_query h v)
    (hnodel : ∀ w, Op.del w ∈ ops2 → ¬ w = v) :
    ∃ l2, runOps l0 (ops1 ++ Op.store v :: ops2) = .ok l2 ∧
      ∃ r, l2.query_bucket v = .ok (r, l2) ∧ v ∈ r := by
  obtain ⟨l1, he1, hWF1, hhs1⟩ := runOps_total ops1 l0 hWF
  have hne1 : l1.hashers ≠ [] := by rw [hhs1]; exact hne
  have hsym1 : ∀ h ∈ l1.hashers,
      VecHash.hash_vec_put h v = VecHash.hash_vec_query h v := by
    rw [hhs1]; exact hsym
  obtain ⟨la, hea, hWFa, hhsa, _⟩ := store_vec_total l1 v hWF1
  have hcva : ContainsV la v :=
    store_establishes_ContainsV l1 la v hWF1 hne1 hsym1 hea
  obtain ⟨l2, he2, hWF2, hhs2, hcv2⟩ :=
    runOps_keeps_ContainsV v ops2 la hWFa hcva hnodel
  have hne2 : l2.hashers ≠ [] := by
    rw [hhs2, hhsa, hhs1]; exact hne
  obtain ⟨r, heq, hm⟩ := query_contains l2 v hWF2 hne2 hcv2
  refine ⟨l2, ?_, r, heq, hm⟩
  rw [runOps_append, he1]
  show (match runOp l1 (Op.store v) with
        | .ok lx => runOps lx ops2
        | .panicked m => .panicked m) = .ok l2
  rw [show runOp l1 (Op.store v) = l1.store_vec v from rfl, hea]
  exact he2

/-- C4 witness: containment at the concrete bound SRP index, across one
further store of a different vector. -/
theorem claim_c4_witness :
    LSH.WF exBound ∧ exBound.hashers ≠ [] ∧
      (∃ l2, runOps exBound ([] ++ Op.store exV :: [Op.store [3, 4]]) = .ok l2 ∧
        ∃ r, l2.query_bucket exV = .ok (r, l2) ∧ exV ∈ r) :=
  ⟨by decide, by decide,
    claim_c4_store_query_containment exBound exV [] [Op.store [3, 4]]
      (by decide) (by decide) (fun h _ => rfl)
      (fun w hw => absurd (List.mem_singleton.mp hw) (by simp))⟩

/-! ## Claim C5 -/

/-- C5: for a fixed nonzero seed and fixed construction parameters, two
freshly constructed indices hash identically: the ambient entropy plays no
role, the per-table hasher seeds are drawn from the one seeded stream in
table order, and the per-table signatures of any vector coincide (stated for
the SRP and L2 families, whose binders lsh.rs lines 18-35 and 50-66 the claim
cites). -/
theorem claim_c5_seeded_determinism (s : ℕ) (hs : ¬ s = 0)
    (np nh d e1 e2 : ℕ) :
    (((LSH.new SignRandomProjections np nh d).seed s).srp e1).hashers =
        (((LSH.new SignRandomProjections np nh d).seed s).srp e2).hashers ∧
      ((((LSH.new SignRandomProjections np nh d).seed s).srp e1).hashers.map
          (fun h => h.seed)) = seedStream s nh ∧
      (∀ v : DataPoint,
        (((LSH.new SignRandomProjections np nh d).seed s).srp e1).hashers.map
            (fun h => h.hash_vec v) =
          (((LSH.new SignRandomProjections np nh d).seed s).srp e2).hashers.map
            (fun h => h.hash_vec v)) ∧
      (∀ r : ℚ,
        (((LSH.new L2 np nh d).seed s).l2 r e1).hashers =
            (((LSH.new L2 np nh d).seed s).l2 r e2).hashers ∧
          ((((LSH.new L2 np nh d).seed s).l2 r e1).hashers.map
              (fun h => h.seed)) = seedStream s nh) := by
  have hc : ∀ e : ℕ, create_rng s e = s := fun e => if_neg hs
  have hsrp : ∀ e : ℕ,
      (((LSH.new SignRandomProjections np nh d).seed s).srp e).hashers =
        srpHashers np d s nh := by
    intro e
    show srpHashers np d (create_rng s e) nh = srpHashers np d s nh
    rw [hc]
  have hl2 : ∀ (r : ℚ) (e : ℕ),
      (((LSH.new L2 np nh d).seed s).l2 r e).hashers =
        l2Hashers d r np s nh := by
    intro r e
    show l2Hashers d r np (create_rng s e) nh = l2Hashers d r np s nh
    rw [hc]
  refine ⟨?_, ?_, ?_, ?_⟩
  · rw [hsrp e1, hsrp e2]
  · rw [hsrp e1]; exact srpHashers_seeds np d nh s
  · intro v; rw [hsrp e1, hsrp e2]
  · intro r
    exact ⟨by rw [hl2 r e1, hl2 r e2], by rw [hl2 r e1]; exact l2Hashers_seeds d r np nh s⟩

/-- C5 witness: determinism at seed 1 with two different entropy values. -/
theorem claim_c5_witness :
    ¬ (1 : ℕ) = 0 ∧
      ((((LSH.new SignRandomProjections 1 2 1).seed 1).srp 0).hashers =
          (((LSH.new SignRandomProjections 1 2 1).seed 1).srp 5).hashers ∧
        ((((LSH.new SignRandomProjections 1 2 1).seed 1).srp 0).hashers.map
            (fun h => h.seed)) = seedStream 1 2 ∧
        (∀ v : DataPoint,
          (((LSH.new SignRandomProjections 1 2 1).seed 1).srp 0).hashers.map
              (fun h => h.hash_vec v) =
            (((LSH.new SignRandomProjections 1 2 1).seed 1).srp 5).hashers.map
              (fun h => h.hash_vec v)) ∧
        (∀ r : ℚ,
          (((LSH.new L2 1 2 1).seed 1).l2 r 0).hashers =
              (((LSH.new L2 1 2 1).seed 1).l2 r 5).hashers ∧
            ((((LSH.new L2 1 2 1).seed 1).l2 r 0).hashers.map
                (fun h => h.seed)) = seedStream 1 2)) :=
  ⟨by decide, claim_c5_seeded_determinism 1 (by decide) 1 2 1 0 5⟩

/-- Decidable equality for backend results. -/
instance {E A : Type} [DecidableEq E] [DecidableEq A] : DecidableEq (Except E A) :=
  fun x y =>
    match x, y with
    | .ok a, .ok b =>
      if h : a = b then isTrue (by rw [h])
      else isFalse (fun he => by cases he; exact h rfl)
    | .error a, .error b =>
      if h : a = b then isTrue (by rw [h])
      else isFalse (fun he => by cases he; exact h rfl)
    | .ok a, .error b => isFalse (fun he => Except.noConfusion he)
    | .error a, .ok b => isFalse (fun he => Except.noConfusion he)

/-! ## Claim C6 -/

/-- C6 counterexample: at `tinyIdx` the backend delete call for table 0 fails
with an unexpected (non-`NotFound`) error, yet `delete_vec` completes
normally with the index unchanged — the error is discarded by the
`unwrap_or_default` at lsh.rs line 189, never surfaced to the caller (whose
return type carries no error channel). -/
theorem claim_c6_counterexample :
    tinyIdx.hash_tables.delete
        (VecHash.hash_vec_query (SignRandomProjections.new 1 2 1) exV) exV 0 =
      .error .Failed ∧
      tinyIdx.delete_vec exV = tinyIdx := by
  exact ⟨by decide, by decide⟩

/-- C6 (amended): `delete_vec` never surfaces a backend error: each
per-table delete result is discarded, the hashers and the global point store
are untouched, and when every backend delete fails (no storage tables) the
call completes silently with the index unchanged.  Unexpected errors on the
store and query paths abort instead of propagating (see C1). -/
theorem claim_c6_delete_discards_errors {H : Type} [VecHash H]
    (l : LSH H) (v : DataPoint) :
    (l.delete_vec v).hashers = l.hashers ∧
      (l.delete_vec v).hash_tables.vec_store = l.hash_tables.vec_store ∧
      (l.hash_tables.hash_tables = [] → l.delete_vec v = l) := by
  refine ⟨rfl, deleteGo_vec_store v l.hashers 0 l.hash_tables, ?_⟩
  intro he
  show { l with hash_tables := deleteGo v 0 l.hashers l.hash_tables } = l
  rw [deleteGo_empty v l.hashers 0 l.hash_tables he]

/-- C6 witness: the discard behaviour at the concrete no-table index. -/
theorem claim_c6_witness :
    tinyIdx.hash_tables.hash_tables = [] ∧ tinyIdx.delete_vec exV = tinyIdx :=
  ⟨by decide, (claim_c6_delete_discards_errors tinyIdx exV).2.2 (by decide)⟩

/-! ## Claim C7 -/

/-- C7: on a well-formed bound index, `delete_vec(v)` computes the query-side
hash of `v` under each hasher and applies the backend delete for that
signature in the corresponding table, and the global point store is left
exactly as it was (never shrunk). -/
theorem claim_c7_delete_uses_query_hash {H : Type} [VecHash H]
    (l : LSH H) (v : DataPoint) (hWF : l.WF) :
    (l.delete_vec v).hash_tables.vec_store = l.hash_tables.vec_store ∧
      (∀ (k : ℕ) (proj : H), l.hashers[k]? = some proj →
        (l.delete_vec v).hash_tables.hash_tables[k]? =
          (l.hash_tables.hash_tables[k]?).map
            (fun tbl => bucketRemove l.hash_tables.vec_store v tbl
              (VecHash.hash_vec_query proj v))) := by
  have hb : 0 + l.hashers.length ≤ l.hash_tables.hash_tables.length := by
    rcases hWF with ⟨h1, h2⟩; omega
  obtain ⟨hfr, hat⟩ := deleteGo_spec v l.hashers 0 l.hash_tables hb
  refine ⟨deleteGo_vec_store v l.hashers 0 l.hash_tables, ?_⟩
  intro k proj hk
  have := hat k proj hk
  simpa using this

/-- C7 witness: the delete characterization at the concrete stored index. -/
theorem claim_c7_witness :
    LSH.WF exStored ∧
      ((exStored.delete_vec exV).hash_tables.vec_store =
          exStored.hash_tables.vec_store ∧
        (∀ (k : ℕ) (proj : SignRandomProjections),
          exStored.hashers[k]? = some proj →
          (exStored.delete_vec exV).hash_tables.hash_tables[k]? =
            (exStored.hash_tables.hash_tables[k]?).map
              (fun tbl => bucketRemove exStored.hash_tables.vec_store exV tbl
                (VecHash.hash_vec_query proj exV)))) :=
  ⟨by decide, claim_c7_delete_uses_query_hash exStored exV (by decide)⟩

/-! ## Structural field preservation of store -/

theorem store_vec_fields {H : Type} [VecHash H] {l l2 : LSH H} {v : DataPoint}
    (he : l.store_vec v = .ok l2) :
    l2.dim = l.dim ∧ l2.hashers = l.hashers ∧
      l2.n_hash_tables = l.n_hash_tables := by
  unfold LSH.store_vec at he
  cases hstep : storeGo v 0 l.hashers l.hash_tables with
  | ok t =>
    rw [hstep] at he
    cases he
    exact ⟨rfl, rfl, rfl⟩
  | panicked m =>
    rw [hstep] at he
    exact PanicOr.noConfusion he

/-! ## Claim C8 -/

/-- C8: every family-selection operation establishes the structural
invariant — as many hashers as storage tables, both equal to
`n_hash_tables`, every hasher carrying the index's single `dim` — and every
subsequent store, query and delete preserves it. -/
theorem claim_c8_structural_invariant :
    (∀ (l : LSH SignRandomProjections) (e : ℕ),
      (l.srp e).hashers.length = l.n_hash_tables ∧
        (l.srp e).hash_tables.hash_tables.length = l.n_hash_tables ∧
        ∀ h ∈ (l.srp e).hashers, h.dim = l.dim) ∧
    (∀ (l : LSH L2) (r : ℚ) (e : ℕ),
      (l.l2 r e).hashers.length = l.n_hash_tables ∧
        (l.l2 r e).hash_tables.hash_tables.length = l.n_hash_tables ∧
        ∀ h ∈ (l.l2 r e).hashers, h.dim = l.dim) ∧
    (∀ (l : LSH MIPS) (r U : ℚ) (m e : ℕ),
      (l.mips r U m e).hashers.length = l.n_hash_tables ∧
        (l.mips r U m e).hash_tables.hash_tables.length = l.n_hash_tables ∧
        ∀ h ∈ (l.mips r U m e).hashers, h.dim = l.dim) ∧
    (∀ (H : Type) [inst : VecHash H] (l l2 : LSH H) (v : DataPoint),
      l.WF → l.store_vec v = .ok l2 →
        l2.WF ∧ l2.hashers = l.hashers ∧
          l2.n_hash_tables = l.n_hash_tables ∧ l2.dim = l.dim) ∧
    (∀ (H : Type) [inst : VecHash H] (l : LSH H) (v : DataPoint),
      l.WF → (l.delete_vec v).WF ∧ (l.delete_vec v).hashers = l.hashers ∧
        (l.delete_vec v).dim = l.dim) ∧
    (∀ (H : Type) [inst : VecHash H] (l : LSH H) (v : DataPoint)
        (r : List DataPoint) (l2 : LSH H),
      l.WF → l.query_bucket v = .ok (r, l2) → l2 = l) := by
  refine ⟨?_, ?_, ?_, ?_, ?_, ?_⟩
  · intro l e
    refine ⟨srpHashers_length _ _ _ _, by simp [LSH.srp, MemoryTable.new], ?_⟩
    intro h hh
    exact (srpHashers_dim l.n_projections l.dim l.n_hash_tables _ h hh).1
  · intro l r e
    refine ⟨l2Hashers_length _ _ _ _ _, by simp [LSH.l2, MemoryTable.new], ?_⟩
    intro h hh
    exact (l2Hashers_dim l.dim r l.n_projections l.n_hash_tables _ h hh).1
  · intro l r U m e
    refine ⟨mipsHashers_length _ _ _ _ _ _ _, by simp [LSH.mips, MemoryTable.new], ?_⟩
    intro h hh
    exact (mipsHashers_dim l.dim r U m l.n_projections l.n_hash_tables _ h hh).1
  · intro H inst l l2 v hWF he
    obtain ⟨l2x, hex, hWF2, hhs, hn⟩ := store_vec_total l v hWF
    obtain ⟨hd, hhs2, hn2⟩ := store_vec_fields he
    rw [he] at hex
    have : l2 = l2x := by cases hex; rfl
    subst this
    exact ⟨hWF2, hhs, hn, hd⟩
  · intro H inst l v hWF
    obtain ⟨hWF2, hhs, _⟩ := delete_vec_WF l v hWF
    exact ⟨hWF2, hhs, rfl⟩
  · intro H inst l v r l2 hWF he
    rw [query_bucket_spec l v hWF] at he
    cases he
    rfl

/-- C8 witness: the invariant established at the concrete bound index and
preserved by a concrete delete. -/
theorem claim_c8_witness :
    LSH.WF exBound ∧
      ((exBound.delete_vec exV).WF ∧
        (exBound.delete_vec exV).hashers = exBound.hashers ∧
        (exBound.delete_vec exV).dim = exBound.dim) :=
  ⟨by decide,
    claim_c8_structural_invariant.2.2.2.2.1 SignRandomProjections
      exBound exV (by decide)⟩

/-! ## Claim C9 -/

/-- C9: `query_bucket` on a well-formed bound index leaves the entire index
state — hashers, every storage table, and the global point store — exactly
as it was: the returned post-call state is the queried index itself, and any
successful query outcome has that same state. -/
theorem claim_c9_query_leaves_state {H : Type} [VecHash H] (l : LSH H)
    (v : DataPoint) (hWF : l.WF) :
    ∃ r, l.query_bucket v = .ok (r, l) ∧
      ∀ (r2 : List DataPoint) (l2 : LSH H),
        l.query_bucket v = .ok (r2, l2) → l2 = l := by
  refine ⟨_, query_bucket_spec l v hWF, ?_⟩
  intro r2 l2 h2
  rw [query_bucket_spec l v hWF] at h2
  cases h2
  rfl

/-- C9 witness: query purity at the concrete stored index. -/
theorem claim_c9_witness :
    LSH.WF exStored ∧
      (∃ r, exStored.query_bucket exV = .ok (r, exStored) ∧
        ∀ (r2 : List DataPoint) (l2 : LSH SignRandomProjections),
          exStored.query_bucket exV = .ok (r2, l2) → l2 = exStored) :=
  ⟨by decide, claim_c9_query_leaves_state exStored exV (by decide)⟩

/-! ## Claim C10 -/

/-- C10: every family-selection operation returns an index whose storage
tables are freshly allocated and empty — whatever was stored in the receiver
beforehand, the returned index's global point store is empty and every query
against it answers with the empty result (and the unchanged fresh index). -/
theorem claim_c10_binding_allocates_fresh :
    (∀ (l : LSH SignRandomProjections) (e : ℕ) (v : DataPoint),
      (l.srp e).hash_tables = MemoryTable.new l.n_hash_tables ∧
        (l.srp e).hash_tables.vec_store = [] ∧
        (l.srp e).query_bucket v = .ok ([], l.srp e)) ∧
    (∀ (l : LSH L2) (r : ℚ) (e : ℕ) (v : DataPoint),
      (l.l2 r e).hash_tables = MemoryTable.new l.n_hash_tables ∧
        (l.l2 r e).hash_tables.vec_store = [] ∧
        (l.l2 r e).query_bucket v = .ok ([], l.l2 r e)) ∧
    (∀ (l : LSH MIPS) (r U : ℚ) (m e : ℕ) (v : DataPoint),
      (l.mips r U m e).hash_tables = MemoryTable.new l.n_hash_tables ∧
        (l.mips r U m e).hash_tables.vec_store = [] ∧
        (l.mips r U m e).query_bucket v = .ok ([], l.mips r U m e)) := by
  refine ⟨?_, ?_, ?_⟩
  · intro l e v
    refine ⟨rfl, rfl, ?_⟩
    apply query_bucket_fresh
    · exact ⟨srpHashers_length _ _ _ _, by simp [LSH.srp, MemoryTable.new]⟩
    · rfl
  · intro l r e v
    refine ⟨rfl, rfl, ?_⟩
    apply query_bucket_fresh
    · exact ⟨l2Hashers_length _ _ _ _ _, by simp [LSH.l2, MemoryTable.new]⟩
    · rfl
  · intro l r U m e v
    refine ⟨rfl, rfl, ?_⟩
    apply query_bucket_fresh
    · exact ⟨mipsHashers_length _ _ _ _ _ _ _, by simp [LSH.mips, MemoryTable.new]⟩
    · rfl

/-- C10 witness: rebinding the concrete stored index yields a fresh empty
index in which the previously stored vector is absent. -/
theorem claim_c10_witness :
    (exStored.srp 7).hash_tables = MemoryTable.new exStored.n_hash_tables ∧
      (exStored.srp 7).hash_tables.vec_store = [] ∧
      (exStored.srp 7).query_bucket exV = .ok ([], exStored.srp 7) :=
  claim_c10_binding_allocates_fresh.1 exStored 7 exV
